import Mathlib

/-!
Verification of the sqlsync core: the LSN-indexed `Journal` (src/lib/sqlsync/src/journal.rs)
and the sparse page store plus its serialized page directory (src/lib/sqlsync/src/page.rs).

Modelling conventions:
* `LSN = u64` and `PageIdx = u64` are modelled as `Nat`; the only place where the
  64-bit width is observable is the big-endian encode/decode of page indices, which
  is modelled with explicit truncation (`% 256` per byte).
* Fallible operations return `Option`: `none` models both a Rust panic
  (failed `assert!` or out-of-bounds slice) and a propagated error; in either
  case the call produces no resulting state/value.
* Byte buffers are `List Nat` (each element models one `u8`).
-/

namespace SqlSync

/-- One contiguous run of journal entries: `Batch { start, data }` from journal.rs. -/
structure Batch (T : Type) where
  start : Nat
  data : List T
deriving DecidableEq

/-- `Journal<T>` from journal.rs: a logical range `[rangeStart, rangeEnd)` of LSNs
plus the dense backing vector of retained entries. -/
structure Journal (T : Type) where
  rangeStart : Nat
  rangeEnd : Nat
  data : List T
deriving DecidableEq

/-- `Journal::new`: range `0..0`, no entries. -/
def Journal.new {T : Type} : Journal T := ⟨0, 0, []⟩

/-- `Journal::end`: `Err` (modelled `none`) when `data` is empty, otherwise a cursor
at LSN `range.end - 1`. -/
def Journal.endCursor {T : Type} (j : Journal T) : Option Nat :=
  if j.data.isEmpty then none else some (j.rangeEnd - 1)

/-- `Journal::append`: push the entry and bump `range.end`. -/
def Journal.append {T : Type} (j : Journal T) (e : T) : Journal T :=
  ⟨j.rangeStart, j.rangeEnd + 1, j.data ++ [e]⟩

/-- `Journal::write`: asserts `range.start <= batch.start <= range.end`, then appends
`batch.data[offset..]` where `offset = range.end - batch.start` and sets
`range.end = batch.start + batch.data.len()`. The Rust slice `batch.data[offset..]`
panics when `offset > batch.data.len()` (modelled by the second guard). -/
def Journal.write {T : Type} (j : Journal T) (b : Batch T) : Option (Journal T) :=
  if b.start < j.rangeStart ∨ j.rangeEnd < b.start then none
  else if b.data.length < j.rangeEnd - b.start then none
  else some ⟨j.rangeStart, b.start + b.data.length,
             j.data ++ b.data.drop (j.rangeEnd - b.start)⟩

/-- `Journal::read`: asserts `range.start <= lsn < range.end`, then returns the batch
`data[offset..min(offset + max_len, range.end)]` with `offset = lsn - range.start`.
Note the source compares the data-relative `offset + max_len` against the absolute
LSN `range.end`; the Rust slice panics (second guard) when the resulting end index
exceeds `data.len()`. -/
def Journal.read {T : Type} (j : Journal T) (lsn : Nat) (maxLen : Nat) :
    Option (Batch T) :=
  if lsn < j.rangeStart ∨ j.rangeEnd ≤ lsn then none
  else if min (lsn - j.rangeStart + maxLen) j.rangeEnd < lsn - j.rangeStart ∨
          j.data.length < min (lsn - j.rangeStart + maxLen) j.rangeEnd then none
  else some ⟨lsn, (j.data.take (min (lsn - j.rangeStart + maxLen) j.rangeEnd)).drop
                    (lsn - j.rangeStart)⟩

/-- `Journal::rollup`: asserts `range.start <= lsn <= range.end`; with a compactor the
retained entries become `compactor(data[offset..]) :: data[offset..]`, without one the
prefix `data[0..offset]` is drained; in both cases `range.start` becomes `lsn`
(`offset = lsn - range.start`; the slice/drain panics when `offset > data.len()`). -/
def Journal.rollup {T : Type} (j : Journal T) (lsn : Nat)
    (cb : Option (List T → T)) : Option (Journal T) :=
  if lsn < j.rangeStart ∨ j.rangeEnd < lsn then none
  else if j.data.length < lsn - j.rangeStart then none
  else
    match cb with
    | some compactor =>
        some ⟨lsn, j.rangeEnd, compactor (j.data.drop (lsn - j.rangeStart)) ::
                                 j.data.drop (lsn - j.rangeStart)⟩
    | none => some ⟨lsn, j.rangeEnd, j.data.drop (lsn - j.rangeStart)⟩

/-- Journal states reachable from `Journal::new` by `append`, `write` and `rollup`
(`read` and `end` take `&self` and do not change state). -/
inductive Reachable {T : Type} : Journal T → Prop
  | init : Reachable Journal.new
  | append (j : Journal T) (e : T) : Reachable j → Reachable (j.append e)
  | write (j : Journal T) (b : Batch T) (j' : Journal T) :
      Reachable j → j.write b = some j' → Reachable j'
  | rollup (j : Journal T) (lsn : Nat) (cb : Option (List T → T)) (j' : Journal T) :
      Reachable j → j.rollup lsn cb = some j' → Reachable j'

/-- Journal states reachable without ever supplying a compactor to `rollup`. -/
inductive ReachableNC {T : Type} : Journal T → Prop
  | init : ReachableNC Journal.new
  | append (j : Journal T) (e : T) : ReachableNC j → ReachableNC (j.append e)
  | write (j : Journal T) (b : Batch T) (j' : Journal T) :
      ReachableNC j → j.write b = some j' → ReachableNC j'
  | rollup (j : Journal T) (lsn : Nat) (j' : Journal T) :
      ReachableNC j → j.rollup lsn none = some j' → ReachableNC j'

theorem Journal.write_eq_some_iff {T : Type} (j : Journal T) (b : Batch T)
    (j' : Journal T) :
    j.write b = some j' ↔
      j.rangeStart ≤ b.start ∧ b.start ≤ j.rangeEnd ∧
      j.rangeEnd - b.start ≤ b.data.length ∧
      j' = ⟨j.rangeStart, b.start + b.data.length,
            j.data ++ b.data.drop (j.rangeEnd - b.start)⟩ := by
  unfold Journal.write
  split
  case isTrue h =>
    constructor
    · intro hc; exact absurd hc (by simp)
    · rintro ⟨h1, h2, -, -⟩; omega
  case isFalse h =>
    split
    case isTrue h2 =>
      constructor
      · intro hc; exact absurd hc (by simp)
      · rintro ⟨-, -, h3, -⟩; omega
    case isFalse h2 =>
      constructor
      · intro hc
        exact ⟨by omega, by omega, by omega, (Option.some.inj hc).symm⟩
      · rintro ⟨-, -, -, h4⟩; subst h4; rfl

theorem Journal.rollup_none_eq_some_iff {T : Type} (j : Journal T) (lsn : Nat)
    (j' : Journal T) :
    j.rollup lsn none = some j' ↔
      j.rangeStart ≤ lsn ∧ lsn ≤ j.rangeEnd ∧
      lsn - j.rangeStart ≤ j.data.length ∧
      j' = ⟨lsn, j.rangeEnd, j.data.drop (lsn - j.rangeStart)⟩ := by
  unfold Journal.rollup
  split
  case isTrue h =>
    constructor
    · intro hc; exact absurd hc (by simp)
    · rintro ⟨h1, h2, -, -⟩; omega
  case isFalse h =>
    split
    case isTrue h2 =>
      constructor
      · intro hc; exact absurd hc (by simp)
      · rintro ⟨-, -, h3, -⟩; omega
    case isFalse h2 =>
      constructor
      · intro hc
        exact ⟨by omega, by omega, by omega, (Option.some.inj hc).symm⟩
      · rintro ⟨-, -, -, h4⟩; subst h4; rfl

theorem Journal.rollup_some_eq_some_iff {T : Type} (j : Journal T) (lsn : Nat)
    (f : List T → T) (j' : Journal T) :
    j.rollup lsn (some f) = some j' ↔
      j.rangeStart ≤ lsn ∧ lsn ≤ j.rangeEnd ∧
      lsn - j.rangeStart ≤ j.data.length ∧
      j' = ⟨lsn, j.rangeEnd, f (j.data.drop (lsn - j.rangeStart)) ::
                               j.data.drop (lsn - j.rangeStart)⟩ := by
  unfold Journal.rollup
  split
  case isTrue h =>
    constructor
    · intro hc; exact absurd hc (by simp)
    · rintro ⟨h1, h2, -, -⟩; omega
  case isFalse h =>
    split
    case isTrue h2 =>
      constructor
      · intro hc; exact absurd hc (by simp)
      · rintro ⟨-, -, h3, -⟩; omega
    case isFalse h2 =>
      constructor
      · intro hc
        exact ⟨by omega, by omega, by omega, (Option.some.inj hc).symm⟩
      · rintro ⟨-, -, -, h4⟩; subst h4; rfl

/-- On every reachable state the logical range is well formed and never claims more
entries than are retained (a `rollup` with a compactor can leave strictly more
retained entries than `rangeEnd - rangeStart`). -/
theorem Journal.reachable_range_le {T : Type} (j : Journal T) (h : Reachable j) :
    j.rangeStart ≤ j.rangeEnd ∧ j.rangeEnd - j.rangeStart ≤ j.data.length := by
  induction h with
  | init => simp [Journal.new]
  | append j e _ ih => simp [Journal.append]; omega
  | write j b j' _ hw ih =>
    obtain ⟨h1, h2, h3, h4⟩ := (Journal.write_eq_some_iff j b j').mp hw
    subst h4
    simp only [List.length_append, List.length_drop]
    omega
  | rollup j lsn cb j' _ hr ih =>
    cases cb with
    | none =>
      obtain ⟨h1, h2, h3, h4⟩ := (Journal.rollup_none_eq_some_iff j lsn j').mp hr
      subst h4
      simp only [List.length_drop]; omega
    | some compactor =>
      obtain ⟨h1, h2, h3, h4⟩ :=
        (Journal.rollup_some_eq_some_iff j lsn compactor j').mp hr
      subst h4
      simp only [List.length_cons, List.length_drop]; omega

/-- On every state reachable without a compactor, `rangeEnd - rangeStart` equals the
number of retained entries exactly. -/
theorem Journal.reachableNC_range_eq {T : Type} (j : Journal T) (h : ReachableNC j) :
    j.rangeStart ≤ j.rangeEnd ∧ j.rangeEnd - j.rangeStart = j.data.length := by
  induction h with
  | init => simp [Journal.new]
  | append j e _ ih => simp [Journal.append]; omega
  | write j b j' _ hw ih =>
    obtain ⟨h1, h2, h3, h4⟩ := (Journal.write_eq_some_iff j b j').mp hw
    subst h4
    simp only [List.length_append, List.length_drop]
    omega
  | rollup j lsn j' _ hr ih =>
    obtain ⟨h1, h2, h3, h4⟩ := (Journal.rollup_none_eq_some_iff j lsn j').mp hr
    subst h4
    simp only [List.length_drop]; omega

/-- Claim C1 (counterexample): the stated invariant
`range.end - range.start == number of retained entries` fails on a reachable state.
A `rollup` with a compactor prepends the synthesized entry while keeping the suffix,
so the empty journal rolled up at LSN 0 with a compactor retains one entry although
`range.end - range.start = 0`. -/
theorem journal_C1_counterexample :
    ∃ j : Journal Nat, Reachable j ∧ j.rangeEnd - j.rangeStart ≠ j.data.length := by
  refine ⟨⟨0, 0, [42]⟩, ?_, by decide⟩
  exact Reachable.rollup Journal.new 0 (some fun _ => 42) ⟨0, 0, [42]⟩ Reachable.init rfl

/-- Claim C1 (amended): on every reachable state `range.start ≤ range.end` and
`range.end - range.start` is at most the number of retained entries, with equality
on every state reachable without a compactor-rollup; `range.start` and `range.end`
never decrease across `append`, `write` or `rollup` (`read` does not change state). -/
theorem journal_C1_amended {T : Type} (j : Journal T) :
    (Reachable j →
      j.rangeStart ≤ j.rangeEnd ∧ j.rangeEnd - j.rangeStart ≤ j.data.length) ∧
    (ReachableNC j → j.rangeEnd - j.rangeStart = j.data.length) ∧
    (∀ e : T, j.rangeStart ≤ (j.append e).rangeStart ∧
      j.rangeEnd ≤ (j.append e).rangeEnd) ∧
    (∀ (b : Batch T) (j' : Journal T), j.write b = some j' →
      j.rangeStart ≤ j'.rangeStart ∧ j.rangeEnd ≤ j'.rangeEnd) ∧
    (∀ (lsn : Nat) (cb : Option (List T → T)) (j' : Journal T),
      j.rollup lsn cb = some j' →
      j.rangeStart ≤ j'.rangeStart ∧ j.rangeEnd ≤ j'.rangeEnd) := by
  refine ⟨fun h => Journal.reachable_range_le j h,
          fun h => (Journal.reachableNC_range_eq j h).2, ?_, ?_, ?_⟩
  · intro e; exact ⟨le_refl _, by simp [Journal.append]⟩
  · intro b j' hw
    obtain ⟨h1, h2, h3, h4⟩ := (Journal.write_eq_some_iff j b j').mp hw
    subst h4
    refine ⟨le_refl _, ?_⟩
    show j.rangeEnd ≤ b.start + b.data.length
    omega
  · intro lsn cb j' hr
    cases cb with
    | none =>
      obtain ⟨h1, h2, h3, h4⟩ := (Journal.rollup_none_eq_some_iff j lsn j').mp hr
      subst h4
      exact ⟨h1, le_refl _⟩
    | some f =>
      obtain ⟨h1, h2, h3, h4⟩ := (Journal.rollup_some_eq_some_iff j lsn f j').mp hr
      subst h4
      exact ⟨h1, le_refl _⟩

/-- Claim C1 witness: the amended statement instantiated at concrete states. -/
theorem journal_C1_amended_witness :
    ((Journal.new : Journal Nat).rangeStart ≤ (Journal.new : Journal Nat).rangeEnd ∧
      (Journal.new : Journal Nat).rangeEnd - (Journal.new : Journal Nat).rangeStart ≤
        (Journal.new : Journal Nat).data.length) ∧
    ((Journal.new : Journal Nat).rangeEnd - (Journal.new : Journal Nat).rangeStart =
      (Journal.new : Journal Nat).data.length) ∧
    ((Journal.new : Journal Nat).rangeStart ≤
        ((Journal.new : Journal Nat).append 5).rangeStart ∧
      (Journal.new : Journal Nat).rangeEnd ≤
        ((Journal.new : Journal Nat).append 5).rangeEnd) ∧
    ((Journal.new : Journal Nat).rangeStart ≤ (⟨0, 1, [7]⟩ : Journal Nat).rangeStart ∧
      (Journal.new : Journal Nat).rangeEnd ≤ (⟨0, 1, [7]⟩ : Journal Nat).rangeEnd) ∧
    ((Journal.new : Journal Nat).rangeStart ≤ (⟨0, 0, []⟩ : Journal Nat).rangeStart ∧
      (Journal.new : Journal Nat).rangeEnd ≤ (⟨0, 0, []⟩ : Journal Nat).rangeEnd) :=
  ⟨(journal_C1_amended Journal.new).1 Reachable.init,
   (journal_C1_amended Journal.new).2.1 ReachableNC.init,
   (journal_C1_amended Journal.new).2.2.1 5,
   (journal_C1_amended Journal.new).2.2.2.1 ⟨0, [7]⟩ ⟨0, 1, [7]⟩ (by decide),
   (journal_C1_amended Journal.new).2.2.2.2 0 none ⟨0, 0, []⟩ (by decide)⟩

/-- Claim C2 (code bug): on the reachable journal with range `[0, 2)` and entries
`[10, 11]`, re-delivering the already fully applied batch `{start 0, data [10]}`
(whose overlap matches the retained prefix, second conjunct) does not leave the
journal unchanged: `write` computes `offset = range.end - batch.start = 2` and the
Rust slice `batch.data[2..]` of a length-1 slice panics, so the call produces no
state (`none`) instead of being an idempotent no-op. -/
theorem journal_C2_panic :
    Reachable (⟨0, 2, [10, 11]⟩ : Journal Nat) ∧
    List.take 1 ([10, 11] : List Nat) = [10] ∧
    Journal.write (⟨0, 2, [10, 11]⟩ : Journal Nat) ⟨0, [10]⟩ = none := by
  refine ⟨?_, rfl, rfl⟩
  exact Reachable.append _ 11 (Reachable.append _ 10 Reachable.init)

/-- Claim C3 (code bug): on the reachable state with `range.start = 1` (after
`append 10; append 11; rollup(1, none)`), the cursor LSN 1 is inside
`[range.start, range.end)` (middle conjuncts) yet `read(1, 2)` produces no batch:
the source clamps the slice end with `min(offset + max_len, range.end)`, comparing a
data-relative offset against an absolute LSN, and the slice `data[0..2]` of the
length-1 backing vector panics. The claim requires the batch `{start 1, data [11]}`. -/
theorem journal_C3_panic :
    Reachable (⟨1, 2, [11]⟩ : Journal Nat) ∧
    (⟨1, 2, [11]⟩ : Journal Nat).rangeStart ≤ 1 ∧
    1 < (⟨1, 2, [11]⟩ : Journal Nat).rangeEnd ∧
    Journal.read (⟨1, 2, [11]⟩ : Journal Nat) 1 2 = none := by
  refine ⟨?_, by decide, by decide, rfl⟩
  have h0 : Reachable (((Journal.new : Journal Nat).append 10).append 11) :=
    Reachable.append _ 11 (Reachable.append _ 10 Reachable.init)
  exact Reachable.rollup _ 1 none ⟨1, 2, [11]⟩ h0 rfl

/-- Claim C4 (counterexample): for the reachable journal with range `[0, 3)` and the
batch `{start 1, data [5]}` (which satisfies `range.start ≤ batch.start ≤ range.end`),
`write` does not produce a state with `range.end = batch.start + len(batch)`: it
panics on the slice `batch.data[2..]` and yields no state at all. -/
theorem journal_C4_counterexample :
    Reachable (⟨0, 3, [4, 5, 6]⟩ : Journal Nat) ∧
    (⟨0, 3, [4, 5, 6]⟩ : Journal Nat).rangeStart ≤ 1 ∧
    1 ≤ (⟨0, 3, [4, 5, 6]⟩ : Journal Nat).rangeEnd ∧
    Journal.write (⟨0, 3, [4, 5, 6]⟩ : Journal Nat) ⟨1, [5]⟩ = none := by
  refine ⟨?_, by decide, by decide, rfl⟩
  exact Reachable.append _ 6 (Reachable.append _ 5 (Reachable.append _ 4 Reachable.init))

/-- Claim C4 (amended): for every batch with
`range.start ≤ batch.start ≤ range.end` that also reaches the current tail
(`range.end ≤ batch.start + len(batch)`), `write` appends exactly the portion of the
batch at or after the tail, leaves the retained entries unaltered, and afterwards
`range.end = batch.start + len(batch)`; a batch starting outside
`[range.start, range.end]` is a contract violation producing no state, as is a batch
ending strictly before the tail (out-of-bounds slice panic). -/
theorem journal_C4_amended {T : Type} (j : Journal T) (b : Batch T) :
    (j.rangeStart ≤ b.start → b.start ≤ j.rangeEnd →
      j.rangeEnd ≤ b.start + b.data.length →
      j.write b = some ⟨j.rangeStart, b.start + b.data.length,
                        j.data ++ b.data.drop (j.rangeEnd - b.start)⟩) ∧
    (b.start < j.rangeStart ∨ j.rangeEnd < b.start → j.write b = none) ∧
    (b.start + b.data.length < j.rangeEnd → j.write b = none) := by
  refine ⟨?_, ?_, ?_⟩
  · intro h1 h2 h3
    exact (Journal.write_eq_some_iff j b _).mpr ⟨h1, h2, by omega, rfl⟩
  · intro h; unfold Journal.write; rw [if_pos h]
  · intro h; unfold Journal.write
    split
    · rfl
    · next h2 => rw [if_pos (by omega)]

/-- Claim C4 witness: the amended statement at concrete journals and batches. -/
theorem journal_C4_amended_witness :
    Journal.write (⟨0, 1, [7]⟩ : Journal Nat) ⟨1, [8]⟩ = some ⟨0, 2, [7, 8]⟩ ∧
    Journal.write (⟨0, 1, [7]⟩ : Journal Nat) ⟨3, [8]⟩ = none ∧
    Journal.write (⟨0, 1, [7]⟩ : Journal Nat) ⟨0, []⟩ = none :=
  ⟨(journal_C4_amended ⟨0, 1, [7]⟩ ⟨1, [8]⟩).1 (by decide) (by decide) (by decide),
   (journal_C4_amended ⟨0, 1, [7]⟩ ⟨3, [8]⟩).2.1 (Or.inr (by decide)),
   (journal_C4_amended ⟨0, 1, [7]⟩ ⟨0, []⟩).2.2 (by decide)⟩

/-- Claim C5: for every reachable journal and every LSN with
`range.start ≤ lsn ≤ range.end`, `rollup` with a compactor feeds the compactor
exactly the entries at data offsets `≥ lsn - range.start` (the entries with sequence
number at and after the rollup point) and the retained entries become the
synthesized entry followed by those same entries, with `range.start = lsn` and
`range.end` unchanged. -/
theorem journal_C5 {T : Type} (j : Journal T) (hj : Reachable j) (lsn : Nat)
    (f : List T → T) (h1 : j.rangeStart ≤ lsn) (h2 : lsn ≤ j.rangeEnd) :
    j.rollup lsn (some f) =
      some ⟨lsn, j.rangeEnd, f (j.data.drop (lsn - j.rangeStart)) ::
                               j.data.drop (lsn - j.rangeStart)⟩ := by
  have hle := Journal.reachable_range_le j hj
  exact (Journal.rollup_some_eq_some_iff j lsn f _).mpr ⟨h1, h2, by omega, rfl⟩

/-- Claim C5 witness: rollup with a constant compactor on the journal `append 7`. -/
theorem journal_C5_witness :
    Journal.rollup (⟨0, 1, [7]⟩ : Journal Nat) 1 (some fun _ => 99) =
      some ⟨1, 1, [99]⟩ := by
  have h : Reachable (⟨0, 1, [7]⟩ : Journal Nat) := Reachable.append _ 7 Reachable.init
  exact journal_C5 _ h 1 _ (by decide) (by decide)

/-- Claim C6: for every reachable journal and every `k` with
`range.start ≤ k ≤ range.end`, `rollup(cursor(k), none)` succeeds, sets
`range.start = k`, keeps `range.end`, and retains exactly the prior entries at data
offsets `≥ k - range.start` (the entries with sequence number ≥ k) in order. -/
theorem journal_C6 {T : Type} (j : Journal T) (hj : Reachable j) (k : Nat)
    (h1 : j.rangeStart ≤ k) (h2 : k ≤ j.rangeEnd) :
    j.rollup k none = some ⟨k, j.rangeEnd, j.data.drop (k - j.rangeStart)⟩ := by
  have hle := Journal.reachable_range_le j hj
  exact (Journal.rollup_none_eq_some_iff j k _).mpr ⟨h1, h2, by omega, rfl⟩

/-- Claim C6 witness: plain rollup at LSN 1 on the journal `append 7; append 8`. -/
theorem journal_C6_witness :
    Journal.rollup (⟨0, 2, [7, 8]⟩ : Journal Nat) 1 none = some ⟨1, 2, [8]⟩ := by
  have h : Reachable (⟨0, 2, [7, 8]⟩ : Journal Nat) :=
    Reachable.append _ 8 (Reachable.append _ 7 Reachable.init)
  exact journal_C6 _ h 1 (by decide) (by decide)

/-- Claim C9: `end()` fails exactly when no entries are retained, and otherwise
returns the cursor `range.end - 1`; moreover for any reachable empty journal,
`append e` followed by `end()` yields a cursor at the prior tail, and reading one
entry at that cursor returns exactly `[e]`. -/
theorem journal_C9 {T : Type} (j : Journal T) (e : T) (hj : Reachable j)
    (he : j.data = []) :
    (∀ j₂ : Journal T, (j₂.endCursor = none ↔ j₂.data = []) ∧
        (j₂.data ≠ [] → j₂.endCursor = some (j₂.rangeEnd - 1))) ∧
    (j.append e).endCursor = some j.rangeEnd ∧
    (j.append e).read j.rangeEnd 1 = some ⟨j.rangeEnd, [e]⟩ := by
  have hse : j.rangeStart = j.rangeEnd := by
    have hle := Journal.reachable_range_le j hj
    rw [he] at hle
    simp only [List.length_nil] at hle
    omega
  refine ⟨?_, ?_, ?_⟩
  · intro j₂
    constructor
    · unfold Journal.endCursor
      split <;> simp_all
    · intro hne
      unfold Journal.endCursor
      rw [if_neg (by simpa using hne)]
  · unfold Journal.append Journal.endCursor
    rw [he]
    simp
  · unfold Journal.append Journal.read
    rw [he, hse]
    simp only [List.nil_append, List.length_cons, List.length_nil]
    rw [if_neg (by omega), if_neg (by omega)]
    have hm : min (j.rangeEnd - j.rangeEnd + 1) (j.rangeEnd + 1) = 1 := by omega
    have hz : j.rangeEnd - j.rangeEnd = 0 := by omega
    rw [hm, hz]
    rfl

/-- Claim C9 witness: instantiated at a nonempty journal and at the empty journal. -/
theorem journal_C9_witness :
    (((⟨4, 9, [3]⟩ : Journal Nat).endCursor = none ↔
        (⟨4, 9, [3]⟩ : Journal Nat).data = []) ∧
      (⟨4, 9, [3]⟩ : Journal Nat).endCursor =
        some ((⟨4, 9, [3]⟩ : Journal Nat).rangeEnd - 1)) ∧
    ((Journal.new : Journal Nat).append 5).endCursor =
      some (Journal.new : Journal Nat).rangeEnd ∧
    ((Journal.new : Journal Nat).append 5).read (Journal.new : Journal Nat).rangeEnd 1 =
      some ⟨(Journal.new : Journal Nat).rangeEnd, [5]⟩ :=
  ⟨⟨((journal_C9 Journal.new 5 Reachable.init rfl).1 ⟨4, 9, [3]⟩).1,
    ((journal_C9 Journal.new 5 Reachable.init rfl).1 ⟨4, 9, [3]⟩).2 (by decide)⟩,
   (journal_C9 Journal.new 5 Reachable.init rfl).2.1,
   (journal_C9 Journal.new 5 Reachable.init rfl).2.2⟩

/-! ### Sparse page store and serialized page directory (src/lib/sqlsync/src/page.rs) -/

/-- `PAGESIZE` from page.rs. -/
def PAGESIZE : Nat := 4096

/-- `PAGE_IDX_SIZE = size_of::<u64>()`. -/
def PAGE_IDX_SIZE : Nat := 8

/-- `Page = [u8; PAGESIZE]`: a list of exactly `PAGESIZE` bytes. -/
abbrev Page := { l : List Nat // l.length = PAGESIZE }

/-- A page of `PAGESIZE` copies of one byte (used for concrete witnesses). -/
def mkPage (b : Nat) : Page := ⟨List.replicate PAGESIZE b, by simp⟩

/-- Insertion into the key-sorted association list modelling `BTreeMap::insert`
(an upsert keeping keys strictly ascending). -/
def btreeInsert (k : Nat) (v : Page) : List (Nat × Page) → List (Nat × Page)
  | [] => [(k, v)]
  | p :: rest =>
    if k < p.1 then (k, v) :: p :: rest
    else if k = p.1 then (k, v) :: rest
    else p :: btreeInsert k v rest

/-- Lookup modelling `BTreeMap::get`. -/
def btreeGet (k : Nat) : List (Nat × Page) → Option Page
  | [] => none
  | p :: rest => if k = p.1 then some p.2 else btreeGet k rest

/-- Maximum of a list of keys, modelling `keys().max()`. -/
def listMax : List Nat → Option Nat
  | [] => none
  | x :: xs =>
    match listMax xs with
    | none => some x
    | some m => some (max x m)

/-- `SparsePages` from page.rs: the `BTreeMap<PageIdx, Page>` is modelled as a
key-sorted association list (`BTreeMap` iterates in ascending key order and its
keys are `u64`; this is captured by `SparsePages.WF` below). -/
structure SparsePages where
  pages : List (Nat × Page)
deriving DecidableEq

/-- `SparsePages::new`. -/
def SparsePages.new : SparsePages := ⟨[]⟩

/-- `SparsePages::num_pages`. -/
def SparsePages.numPages (s : SparsePages) : Nat := s.pages.length

/-- `SparsePages::write`: upsert the full page at `page_idx`. -/
def SparsePages.write (s : SparsePages) (pageIdx : Nat) (page : Page) : SparsePages :=
  ⟨btreeInsert pageIdx page s.pages⟩

/-- `SparsePages::max_page_idx`. -/
def SparsePages.maxPageIdx (s : SparsePages) : Option Nat :=
  listMax (s.pages.map Prod.fst)

/-- `BTreeMap::get`, lifted to the store. -/
def SparsePages.get (s : SparsePages) (pageIdx : Nat) : Option Page :=
  btreeGet pageIdx s.pages

/-- `SparsePages::read(page_idx, page_offset, buf)`: if the page is present, assert
`page_offset + buf.len() <= PAGESIZE` and copy that slice of the page into `buf`
(result: bytes-copied count and the new buffer contents); if the page is absent,
return 0 copied with the buffer untouched. The bounds assertion sits inside the
`map` over the lookup result, so it is only evaluated for a present page. -/
def SparsePages.read (s : SparsePages) (pageIdx pageOffset : Nat) (buf : List Nat) :
    Option (Nat × List Nat) :=
  match s.get pageIdx with
  | some page =>
    if pageOffset + buf.length ≤ PAGESIZE then
      some (buf.length, (page.val.take (pageOffset + buf.length)).drop pageOffset)
    else none
  | none => some (0, buf)

/-- Invariant every value of Rust type `BTreeMap<u64, Page>` satisfies: keys are
strictly ascending (the iteration order of `BTreeMap`) and fit in a `u64`. -/
def SparsePages.WF (s : SparsePages) : Prop :=
  s.pages.Pairwise (fun a b => a.1 < b.1) ∧ ∀ p ∈ s.pages, p.1 < 2 ^ 64

/-- `u64::to_be_bytes`: eight big-endian bytes (with the `u64` truncation explicit
in the `% 256` of the top byte). -/
def u64ToBeBytes (n : Nat) : List Nat :=
  [n / 2 ^ 56 % 256, n / 2 ^ 48 % 256, n / 2 ^ 40 % 256, n / 2 ^ 32 % 256,
   n / 2 ^ 24 % 256, n / 2 ^ 16 % 256, n / 2 ^ 8 % 256, n % 256]

/-- `u64::from_be_bytes`. -/
def u64FromBeBytes (bs : List Nat) : Nat :=
  bs.foldl (fun acc b => acc * 256 + b) 0

/-- One on-disk record: `page_idx` (8 bytes big-endian) followed by the page. -/
def pageBlock (p : Nat × Page) : List Nat := u64ToBeBytes p.1 ++ p.2.val

/-- `Serializable::serialize_into` for `SparsePages`: panics (no output) on an empty
store, otherwise writes the max page index then every `(page_idx, page)` record in
ascending key order. The written byte stream is returned. -/
def SparsePages.serialize (s : SparsePages) : Option (List Nat) :=
  if s.pages.length = 0 then none
  else
    match s.maxPageIdx with
    | none => none
    | some m => some (u64ToBeBytes m ++ (s.pages.map pageBlock).flatten)

/-- Modelled from the spec: the `PositionedReader` capability (positioned_io.rs is
not part of the sources here) over an in-memory byte buffer. `read_exact_at` fills
a `len`-byte buffer from absolute offset `pos`, failing (as an `IoFailure`) when the
backing store is too short; `size` is the buffer length. -/
def readExactAt (bytes : List Nat) (pos len : Nat) : Option (List Nat) :=
  if pos + len ≤ bytes.length then some ((bytes.take (pos + len)).drop pos) else none

namespace SerializedPagesReader

/-- `SerializedPagesReader::num_pages`: `(size - PAGE_IDX_SIZE) / (PAGE_IDX_SIZE + PAGESIZE)`. -/
def numPages (bytes : List Nat) : Nat :=
  (bytes.length - PAGE_IDX_SIZE) / (PAGE_IDX_SIZE + PAGESIZE)

/-- `SerializedPagesReader::max_page_idx`: decode the first 8 bytes big-endian. -/
def maxPageIdx (bytes : List Nat) : Option Nat :=
  (readExactAt bytes 0 PAGE_IDX_SIZE).map u64FromBeBytes

/-- The binary-search loop of `SerializedPagesReader::read` over the candidate
record range `[left, right)`: read the 8-byte `page_idx` at the midpoint record,
compare, and narrow; on a hit read `bufLen` bytes of page content at
`record_offset + PAGE_IDX_SIZE + pageOffset`; an empty range returns 0 bytes
copied (`some []`). -/
def searchRead (bytes : List Nat) (pageIdx pageOffset bufLen left right : Nat) :
    Option (List Nat) :=
  if _h : left < right then
    match readExactAt bytes
        (PAGE_IDX_SIZE + (left + (right - left) / 2) * (PAGE_IDX_SIZE + PAGESIZE))
        PAGE_IDX_SIZE with
    | none => none
    | some idxBytes =>
      if u64FromBeBytes idxBytes = pageIdx then
        readExactAt bytes
          (PAGE_IDX_SIZE + (left + (right - left) / 2) * (PAGE_IDX_SIZE + PAGESIZE) +
            PAGE_IDX_SIZE + pageOffset) bufLen
      else if u64FromBeBytes idxBytes < pageIdx then
        searchRead bytes pageIdx pageOffset bufLen (left + (right - left) / 2 + 1) right
      else
        searchRead bytes pageIdx pageOffset bufLen left (left + (right - left) / 2)
  else some []
termination_by right - left
decreasing_by
  · omega
  · omega

/-- `SerializedPagesReader::read`: assert the in-page bounds, then binary search the
`num_pages` records. -/
def read (bytes : List Nat) (pageIdx pageOffset bufLen : Nat) : Option (List Nat) :=
  if pageOffset < PAGESIZE ∧ pageOffset + bufLen ≤ PAGESIZE then
    searchRead bytes pageIdx pageOffset bufLen 0 (numPages bytes)
  else none

end SerializedPagesReader

/-- Claim C10: a read against an absent page index succeeds with zero bytes copied
and an untouched buffer for every `page_offset` and buffer length, even when
`page_offset + len(buf) > PAGESIZE`: the bounds assertion is only evaluated when
the page is present. -/
theorem pages_C10 (s : SparsePages) (pageIdx pageOffset : Nat) (buf : List Nat)
    (h : s.get pageIdx = none) :
    s.read pageIdx pageOffset buf = some (0, buf) := by
  unfold SparsePages.read
  rw [h]

/-- Claim C10 witness: an out-of-bounds request (offset 5000, 4097-byte buffer)
against an absent index of the empty store. -/
theorem pages_C10_witness :
    PAGESIZE < 5000 + (List.replicate 4097 2).length ∧
    SparsePages.read SparsePages.new 7 5000 (List.replicate 4097 2) =
      some (0, List.replicate 4097 2) :=
  ⟨by rw [List.length_replicate]; decide,
   pages_C10 SparsePages.new 7 5000 (List.replicate 4097 2) rfl⟩

theorem btreeGet_insert_self (k : Nat) (v : Page) (l : List (Nat × Page)) :
    btreeGet k (btreeInsert k v l) = some v := by
  induction l with
  | nil => simp [btreeInsert, btreeGet]
  | cons p rest ih =>
    unfold btreeInsert
    split
    · simp [btreeGet]
    · split
      · simp [btreeGet]
      · next h1 h2 => simp [btreeGet, ih, show ¬ k = p.1 by omega]

/-- Claim C8: reading a full page at a never-written index copies zero bytes and
leaves the buffer unmodified; after `write idx page` (an upsert), reading the full
page at `idx` copies `PAGESIZE` bytes that are byte-identical to `page`. -/
theorem pages_C8 (s : SparsePages) (pageIdx : Nat) (page : Page) (buf : List Nat)
    (hbuf : buf.length = PAGESIZE) :
    (s.get pageIdx = none → s.read pageIdx 0 buf = some (0, buf)) ∧
    (s.write pageIdx page).read pageIdx 0 buf = some (PAGESIZE, page.val) := by
  constructor
  · intro h; unfold SparsePages.read; rw [h]
  · have hg : (s.write pageIdx page).get pageIdx = some page :=
      btreeGet_insert_self pageIdx page s.pages
    unfold SparsePages.read
    rw [hg]
    show (if 0 + buf.length ≤ PAGESIZE then
            some (buf.length, (page.val.take (0 + buf.length)).drop 0)
          else none) = some (PAGESIZE, page.val)
    have ht : page.val.take (0 + PAGESIZE) = page.val := by
      rw [Nat.zero_add]
      exact List.take_of_length_le (le_of_eq page.property)
    rw [hbuf, if_pos (by omega), ht, List.drop_zero]

/-- Claim C8 witness: the empty store, index 3 and an all-ones page. -/
theorem pages_C8_witness :
    SparsePages.read SparsePages.new 3 0 (List.replicate PAGESIZE 0) =
      some (0, List.replicate PAGESIZE 0) ∧
    (SparsePages.new.write 3 (mkPage 1)).read 3 0 (List.replicate PAGESIZE 0) =
      some (PAGESIZE, (mkPage 1).val) :=
  ⟨(pages_C8 SparsePages.new 3 (mkPage 1) (List.replicate PAGESIZE 0) (by simp)).1 rfl,
   (pages_C8 SparsePages.new 3 (mkPage 1) (List.replicate PAGESIZE 0) (by simp)).2⟩

theorem u64ToBeBytes_length (n : Nat) : (u64ToBeBytes n).length = PAGE_IDX_SIZE := rfl

theorem u64_roundtrip (n : Nat) (h : n < 2 ^ 64) :
    u64FromBeBytes (u64ToBeBytes n) = n := by
  simp only [u64ToBeBytes, u64FromBeBytes, List.foldl_cons, List.foldl_nil]
  omega

theorem readExactAt_eq (bytes : List Nat) (pos len : Nat)
    (h : pos + len ≤ bytes.length) :
    readExactAt bytes pos len = some ((bytes.drop pos).take len) := by
  unfold readExactAt
  rw [if_pos h, List.drop_take]
  have hc : pos + len - pos = len := by omega
  rw [hc]

theorem pageBlock_length (p : Nat × Page) :
    (pageBlock p).length = PAGE_IDX_SIZE + PAGESIZE := by
  unfold pageBlock
  rw [List.length_append, u64ToBeBytes_length, p.2.property]

theorem flatten_blocks_length (ps : List (Nat × Page)) :
    ((ps.map pageBlock).flatten).length = ps.length * (PAGE_IDX_SIZE + PAGESIZE) := by
  induction ps with
  | nil => simp
  | cons p rest ih =>
    rw [List.map_cons, List.flatten_cons, List.length_append, ih, pageBlock_length,
        List.length_cons, Nat.succ_mul]
    ring

theorem flatten_blocks_drop (i : Nat) : ∀ ps : List (Nat × Page),
    ((ps.map pageBlock).flatten).drop (i * (PAGE_IDX_SIZE + PAGESIZE)) =
      ((ps.drop i).map pageBlock).flatten := by
  induction i with
  | zero => intro ps; simp
  | succ i ih =>
    intro ps
    cases ps with
    | nil => simp
    | cons p rest =>
      have hstep : (i + 1) * (PAGE_IDX_SIZE + PAGESIZE) =
          (pageBlock p).length + i * (PAGE_IDX_SIZE + PAGESIZE) := by
        rw [pageBlock_length]; ring
      rw [List.map_cons, List.flatten_cons, hstep, List.drop_append, ih rest,
          List.drop_succ_cons]

/-- The byte stream `serialize_into` writes for a store with pages `ps` and maximum
page index `m`. -/
def serBytes (m : Nat) (ps : List (Nat × Page)) : List Nat :=
  u64ToBeBytes m ++ (ps.map pageBlock).flatten

theorem serBytes_length (m : Nat) (ps : List (Nat × Page)) :
    (serBytes m ps).length = PAGE_IDX_SIZE + ps.length * (PAGE_IDX_SIZE + PAGESIZE) := by
  unfold serBytes
  rw [List.length_append, flatten_blocks_length, u64ToBeBytes_length]

theorem serBytes_drop (m : Nat) (ps : List (Nat × Page)) (i : Nat) :
    (serBytes m ps).drop (PAGE_IDX_SIZE + i * (PAGE_IDX_SIZE + PAGESIZE)) =
      ((ps.drop i).map pageBlock).flatten := by
  unfold serBytes
  have h := @List.drop_append Nat (u64ToBeBytes m) ((ps.map pageBlock).flatten)
    (i * (PAGE_IDX_SIZE + PAGESIZE))
  rw [u64ToBeBytes_length] at h
  rw [h, flatten_blocks_drop]

theorem serBytes_key_at (m : Nat) (ps : List (Nat × Page)) (i : Nat)
    (hi : i < ps.length) :
    readExactAt (serBytes m ps)
        (PAGE_IDX_SIZE + i * (PAGE_IDX_SIZE + PAGESIZE)) PAGE_IDX_SIZE =
      some (u64ToBeBytes (ps.get ⟨i, hi⟩).1) := by
  have hmul : (i + 1) * (PAGE_IDX_SIZE + PAGESIZE) ≤
      ps.length * (PAGE_IDX_SIZE + PAGESIZE) := Nat.mul_le_mul_right _ hi
  have hbound : PAGE_IDX_SIZE + i * (PAGE_IDX_SIZE + PAGESIZE) + PAGE_IDX_SIZE ≤
      (serBytes m ps).length := by
    rw [serBytes_length]
    simp only [PAGE_IDX_SIZE, PAGESIZE] at *
    omega
  rw [readExactAt_eq _ _ _ hbound, serBytes_drop,
      ← List.get_cons_drop ps ⟨i, hi⟩, List.map_cons, List.flatten_cons]
  unfold pageBlock
  rw [List.append_assoc,
      List.take_append_of_le_length (by simp [u64ToBeBytes_length]),
      List.take_of_length_le (le_of_eq (u64ToBeBytes_length _))]

theorem serBytes_page_at (m : Nat) (ps : List (Nat × Page)) (i : Nat)
    (hi : i < ps.length) (off len : Nat) (hol : off + len ≤ PAGESIZE) :
    readExactAt (serBytes m ps)
        (PAGE_IDX_SIZE + i * (PAGE_IDX_SIZE + PAGESIZE) + PAGE_IDX_SIZE + off) len =
      some (((ps.get ⟨i, hi⟩).2.val.drop off).take len) := by
  have hmul : (i + 1) * (PAGE_IDX_SIZE + PAGESIZE) ≤
      ps.length * (PAGE_IDX_SIZE + PAGESIZE) := Nat.mul_le_mul_right _ hi
  have hbound : PAGE_IDX_SIZE + i * (PAGE_IDX_SIZE + PAGESIZE) + PAGE_IDX_SIZE + off +
      len ≤ (serBytes m ps).length := by
    rw [serBytes_length]
    simp only [PAGE_IDX_SIZE, PAGESIZE] at *
    omega
  rw [readExactAt_eq _ _ _ hbound]
  have h1 : PAGE_IDX_SIZE + i * (PAGE_IDX_SIZE + PAGESIZE) + PAGE_IDX_SIZE + off =
      (PAGE_IDX_SIZE + i * (PAGE_IDX_SIZE + PAGESIZE)) + (PAGE_IDX_SIZE + off) := by
    omega
  rw [h1, ← List.drop_drop, serBytes_drop,
      ← List.get_cons_drop ps ⟨i, hi⟩, List.map_cons, List.flatten_cons]
  unfold pageBlock
  rw [List.append_assoc]
  have h2 : PAGE_IDX_SIZE + off =
      (u64ToBeBytes (ps.get ⟨i, hi⟩).1).length + off := by
    rw [u64ToBeBytes_length]
  rw [h2, List.drop_append,
      List.drop_append_of_le_length
        (by rw [(ps.get ⟨i, hi⟩).2.property]; omega),
      List.take_append_of_le_length
        (by rw [List.length_drop, (ps.get ⟨i, hi⟩).2.property]; omega)]

theorem searchRead_stop (bytes : List Nat) (pageIdx pageOffset bufLen left right : Nat)
    (h : ¬ left < right) :
    SerializedPagesReader.searchRead bytes pageIdx pageOffset bufLen left right =
      some [] := by
  unfold SerializedPagesReader.searchRead
  rw [dif_neg h]

theorem searchRead_step (bytes : List Nat) (pageIdx pageOffset bufLen left right : Nat)
    (h : left < right) (key : Nat)
    (hk : readExactAt bytes
        (PAGE_IDX_SIZE + (left + (right - left) / 2) * (PAGE_IDX_SIZE + PAGESIZE))
        PAGE_IDX_SIZE = some (u64ToBeBytes key)) :
    SerializedPagesReader.searchRead bytes pageIdx pageOffset bufLen left right =
      if u64FromBeBytes (u64ToBeBytes key) = pageIdx then
        readExactAt bytes
          (PAGE_IDX_SIZE + (left + (right - left) / 2) * (PAGE_IDX_SIZE + PAGESIZE) +
            PAGE_IDX_SIZE + pageOffset) bufLen
      else if u64FromBeBytes (u64ToBeBytes key) < pageIdx then
        SerializedPagesReader.searchRead bytes pageIdx pageOffset bufLen
          (left + (right - left) / 2 + 1) right
      else
        SerializedPagesReader.searchRead bytes pageIdx pageOffset bufLen left
          (left + (right - left) / 2) := by
  conv_lhs => unfold SerializedPagesReader.searchRead
  rw [dif_pos h, hk]

/-- Binary-search hit: if record `i` holds the looked-up page index, the loop over
any window `[left, right)` containing `i` returns that record's page slice. -/
theorem searchRead_found (m : Nat) (ps : List (Nat × Page))
    (hsort : ps.Pairwise (fun a b => a.1 < b.1))
    (hkeys : ∀ p ∈ ps, p.1 < 2 ^ 64)
    (pageIdx pageOffset bufLen : Nat) (hol : pageOffset + bufLen ≤ PAGESIZE) :
    ∀ fuel left right : Nat, right - left ≤ fuel → right ≤ ps.length →
      ∀ (i : Nat) (hi : i < ps.length), (ps.get ⟨i, hi⟩).1 = pageIdx →
      left ≤ i → i < right →
      SerializedPagesReader.searchRead (serBytes m ps) pageIdx pageOffset bufLen
          left right =
        some (((ps.get ⟨i, hi⟩).2.val.drop pageOffset).take bufLen) := by
  intro fuel
  induction fuel with
  | zero => intro left right hf hr i hi hkey hl hir; omega
  | succ fuel ih =>
    intro left right hf hr i hi hkey hl hir
    have hlr : left < right := by omega
    have hmidn : left + (right - left) / 2 < ps.length := by omega
    rw [searchRead_step _ _ _ _ _ _ hlr _ (serBytes_key_at m ps _ hmidn)]
    have hmid64 : (ps.get ⟨left + (right - left) / 2, hmidn⟩).1 < 2 ^ 64 :=
      hkeys _ (List.get_mem _ _ _)
    rw [u64_roundtrip _ hmid64]
    rcases Nat.lt_trichotomy (ps.get ⟨left + (right - left) / 2, hmidn⟩).1 pageIdx with
      hlt | heq | hgt
    · rw [if_neg (by omega), if_pos hlt]
      have hmi : left + (right - left) / 2 < i := by
        rcases Nat.lt_trichotomy (left + (right - left) / 2) i with h | h | h
        · exact h
        · have hfin : (⟨left + (right - left) / 2, hmidn⟩ : Fin ps.length) = ⟨i, hi⟩ :=
            Fin.ext h
          rw [hfin] at hlt
          omega
        · have := (List.pairwise_iff_get.mp hsort) ⟨i, hi⟩
            ⟨left + (right - left) / 2, hmidn⟩ (Fin.mk_lt_mk.mpr h)
          omega
      exact ih _ right (by omega) hr i hi hkey (by omega) hir
    · rw [if_pos heq]
      have hmi : left + (right - left) / 2 = i := by
        rcases Nat.lt_trichotomy (left + (right - left) / 2) i with h | h | h
        · have := (List.pairwise_iff_get.mp hsort)
            ⟨left + (right - left) / 2, hmidn⟩ ⟨i, hi⟩ (Fin.mk_lt_mk.mpr h)
          omega
        · exact h
        · have := (List.pairwise_iff_get.mp hsort) ⟨i, hi⟩
            ⟨left + (right - left) / 2, hmidn⟩ (Fin.mk_lt_mk.mpr h)
          omega
      subst hmi
      exact serBytes_page_at m ps _ hmidn pageOffset bufLen hol
    · rw [if_neg (by omega), if_neg (by omega)]
      have hmi : i < left + (right - left) / 2 := by
        rcases Nat.lt_trichotomy i (left + (right - left) / 2) with h | h | h
        · exact h
        · have hfin : (⟨left + (right - left) / 2, hmidn⟩ : Fin ps.length) = ⟨i, hi⟩ :=
            Fin.ext h.symm
          rw [hfin] at hgt
          omega
        · have := (List.pairwise_iff_get.mp hsort)
            ⟨left + (right - left) / 2, hmidn⟩ ⟨i, hi⟩ (Fin.mk_lt_mk.mpr h)
          omega
      exact ih left _ (by omega) (by omega) i hi hkey hl hmi

/-- Binary-search miss: when no record key equals the looked-up page index, the loop
returns 0 bytes copied. -/
theorem searchRead_absent (m : Nat) (ps : List (Nat × Page))
    (hkeys : ∀ p ∈ ps, p.1 < 2 ^ 64)
    (pageIdx pageOffset bufLen : Nat)
    (habs : ∀ p ∈ ps, p.1 ≠ pageIdx) :
    ∀ fuel left right : Nat, right - left ≤ fuel → right ≤ ps.length →
      SerializedPagesReader.searchRead (serBytes m ps) pageIdx pageOffset bufLen
        left right = some [] := by
  intro fuel
  induction fuel with
  | zero => intro left right hf hr; exact searchRead_stop _ _ _ _ _ _ (by omega)
  | succ fuel ih =>
    intro left right hf hr
    by_cases hlr : left < right
    · have hmidn : left + (right - left) / 2 < ps.length := by omega
      rw [searchRead_step _ _ _ _ _ _ hlr _ (serBytes_key_at m ps _ hmidn)]
      have hmid64 : (ps.get ⟨left + (right - left) / 2, hmidn⟩).1 < 2 ^ 64 :=
        hkeys _ (List.get_mem _ _ _)
      rw [u64_roundtrip _ hmid64]
      have hne : (ps.get ⟨left + (right - left) / 2, hmidn⟩).1 ≠ pageIdx :=
        habs _ (List.get_mem _ _ _)
      rw [if_neg hne]
      by_cases hlt : (ps.get ⟨left + (right - left) / 2, hmidn⟩).1 < pageIdx
      · rw [if_pos hlt]
        exact ih _ right (by omega) hr
      · rw [if_neg hlt]
        exact ih left _ (by omega) (by omega)
    · exact searchRead_stop _ _ _ _ _ _ hlr

theorem btreeGet_mem (k : Nat) (v : Page) (l : List (Nat × Page))
    (h : btreeGet k l = some v) : (k, v) ∈ l := by
  induction l with
  | nil => simp [btreeGet] at h
  | cons p rest ih =>
    unfold btreeGet at h
    split at h
    · next heq =>
      cases p with
      | mk a b =>
        have hv : b = v := Option.some.inj h
        subst heq; subst hv
        exact List.mem_cons_self _ _
    · next hne => exact List.mem_cons_of_mem _ (ih h)

theorem btreeGet_none_keys (k : Nat) (l : List (Nat × Page))
    (h : btreeGet k l = none) : ∀ p ∈ l, p.1 ≠ k := by
  induction l with
  | nil => intro p hp; simp at hp
  | cons q rest ih =>
    unfold btreeGet at h
    split at h
    · exact absurd h (by simp)
    · next hne =>
      intro p hp
      rcases List.mem_cons.mp hp with hq | hq
      · subst hq; exact fun e => hne e.symm
      · exact ih h p hq

theorem listMax_mem (l : List Nat) : ∀ m : Nat, listMax l = some m → m ∈ l := by
  induction l with
  | nil => intro m h; simp [listMax] at h
  | cons x xs ih =>
    intro m h
    unfold listMax at h
    split at h
    · have hx : x = m := Option.some.inj h
      rw [← hx]
      exact List.mem_cons_self _ _
    · next m' heq =>
      have hm := Option.some.inj h
      rcases max_choice x m' with hc | hc
      · rw [← hm, hc]; exact List.mem_cons_self _ _
      · rw [← hm, hc]; exact List.mem_cons_of_mem _ (ih m' heq)

theorem listMax_cons_isSome (x : Nat) (xs : List Nat) :
    ∃ m, listMax (x :: xs) = some m := by
  unfold listMax
  rcases h : listMax xs with _ | q
  · exact ⟨x, rfl⟩
  · exact ⟨max x q, rfl⟩

theorem serialize_eq (s : SparsePages) (m : Nat) (hne : s.pages ≠ [])
    (hm : s.maxPageIdx = some m) :
    s.serialize = some (serBytes m s.pages) := by
  unfold SparsePages.serialize
  rw [if_neg (by simpa using hne), hm]
  rfl

theorem numPages_serBytes (m : Nat) (ps : List (Nat × Page)) :
    SerializedPagesReader.numPages (serBytes m ps) = ps.length := by
  unfold SerializedPagesReader.numPages
  rw [serBytes_length]
  simp only [PAGE_IDX_SIZE, PAGESIZE]
  omega

theorem maxPageIdx_serBytes (m : Nat) (ps : List (Nat × Page)) (hm : m < 2 ^ 64) :
    SerializedPagesReader.maxPageIdx (serBytes m ps) = some m := by
  unfold SerializedPagesReader.maxPageIdx
  have hb : 0 + PAGE_IDX_SIZE ≤ (serBytes m ps).length := by
    rw [serBytes_length]; omega
  rw [readExactAt_eq _ _ _ hb]
  unfold serBytes
  rw [List.drop_zero,
      List.take_append_of_le_length (by simp [u64ToBeBytes_length]),
      List.take_of_length_le (le_of_eq (u64ToBeBytes_length m))]
  simp [u64_roundtrip m hm]

/-- Claim C7: serializing any non-empty sparse page store and reading the produced
bytes back through the serialized-pages reader is a round trip: every written page
index yields, for every in-bounds `(offset, len)` request, exactly `len` bytes that
are byte-identical to that range of the original page; every absent index yields
zero bytes copied; and the reader's `max_page_idx()` equals the store's. `WF` is the
invariant every Rust `BTreeMap<u64, Page>` satisfies (strictly ascending `u64` keys
in iteration order). -/
theorem pages_C7 (s : SparsePages) (hwf : s.WF) (hne : s.pages ≠ []) :
    ∃ bytes, s.serialize = some bytes ∧
      (∀ pageIdx page, s.get pageIdx = some page →
        ∀ off len, off < PAGESIZE → off + len ≤ PAGESIZE →
          SerializedPagesReader.read bytes pageIdx off len =
            some ((page.val.drop off).take len) ∧
          ((page.val.drop off).take len).length = len) ∧
      (∀ pageIdx, s.get pageIdx = none →
        ∀ off len, off < PAGESIZE → off + len ≤ PAGESIZE →
          SerializedPagesReader.read bytes pageIdx off len = some []) ∧
      SerializedPagesReader.maxPageIdx bytes = s.maxPageIdx := by
  obtain ⟨x, xs, hps⟩ : ∃ x xs, s.pages.map Prod.fst = x :: xs := by
    cases hc : s.pages with
    | nil => exact absurd hc hne
    | cons p rest => exact ⟨p.1, rest.map Prod.fst, rfl⟩
  obtain ⟨m, hm⟩ : ∃ m, s.maxPageIdx = some m := by
    unfold SparsePages.maxPageIdx
    rw [hps]
    exact listMax_cons_isSome x xs
  have hm64 : m < 2 ^ 64 := by
    have hm' : listMax (s.pages.map Prod.fst) = some m := hm
    obtain ⟨p, hp, hpm⟩ := List.mem_map.mp (listMax_mem _ m hm')
    rw [← hpm]
    exact hwf.2 p hp
  refine ⟨serBytes m s.pages, serialize_eq s m hne hm, ?_, ?_, ?_⟩
  · intro pageIdx page hget off len hoff hol
    have hmem := btreeGet_mem pageIdx page s.pages hget
    obtain ⟨⟨iv, hiv⟩, hgi⟩ := List.get_of_mem hmem
    constructor
    · unfold SerializedPagesReader.read
      rw [if_pos ⟨hoff, hol⟩, numPages_serBytes]
      have hsr := searchRead_found m s.pages hwf.1 hwf.2 pageIdx off len hol
        s.pages.length 0 s.pages.length (by omega) (le_refl _) iv hiv
        (by rw [hgi]) (Nat.zero_le _) hiv
      rw [hsr, hgi]
    · rw [List.length_take, List.length_drop, page.property]
      omega
  · intro pageIdx hget off len hoff hol
    unfold SerializedPagesReader.read
    rw [if_pos ⟨hoff, hol⟩, numPages_serBytes]
    exact searchRead_absent m s.pages hwf.2 pageIdx off len
      (btreeGet_none_keys pageIdx s.pages hget) s.pages.length 0 s.pages.length
      (by omega) (le_refl _)
  · rw [maxPageIdx_serBytes m s.pages hm64, hm]

/-- Claim C7 witness: the store holding pages at indices 3 and 17, read back at a
written index (in-page range 5..15), at the absent index 42, and via the header. -/
theorem pages_C7_witness :
    ∃ bytes,
      ((SparsePages.new.write 3 (mkPage 1)).write 17 (mkPage 2)).serialize =
        some bytes ∧
      SerializedPagesReader.read bytes 3 5 10 =
        some (((mkPage 1).val.drop 5).take 10) ∧
      (((mkPage 1).val.drop 5).take 10).length = 10 ∧
      SerializedPagesReader.read bytes 42 0 PAGESIZE = some [] ∧
      SerializedPagesReader.maxPageIdx bytes = some 17 := by
  obtain ⟨bytes, h1, h2, h3, h4⟩ :=
    pages_C7 ((SparsePages.new.write 3 (mkPage 1)).write 17 (mkPage 2))
      ⟨by decide, by decide⟩ (by decide)
  refine ⟨bytes, h1, ?_, ?_, ?_, ?_⟩
  · exact (h2 3 (mkPage 1) rfl 5 10 (by decide) (by decide)).1
  · exact (h2 3 (mkPage 1) rfl 5 10 (by decide) (by decide)).2
  · exact h3 42 rfl 0 PAGESIZE (by decide) (by decide)
  · exact h4.trans rfl

end SqlSync
